import Mathlib

/-!
Verification of the ride-selection knapsack program in maxtime.hh.

The C++ code is shallowly embedded: `double` time values are modelled as
exact rationals (ℚ), the positive integer dollar costs as ℕ, and the
`std::vector<std::shared_ptr<RideItem>>` as `List RideItem`.  Floating-point
rounding is out of scope; all arithmetic is exact.
-/

/-- One ride item available for purchase (class RideItem in maxtime.hh).
The constructor asserts a non-empty description and a strictly positive
cost; those invariants appear as hypotheses of the theorems below. -/
structure RideItem where
  description : String
  cost : ℕ
  time : ℚ
  deriving DecidableEq, Repr

/-- Total dollar cost of a list of rides (the `total_cost` accumulator of
sum_ride_vector). -/
def totalCost (rides : List RideItem) : ℕ :=
  (rides.map RideItem.cost).sum

/-- Total time of a list of rides (the `total_time` accumulator of
sum_ride_vector). -/
def totalTime (rides : List RideItem) : ℚ :=
  (rides.map RideItem.time).sum

/-- sum_ride_vector from maxtime.hh: one pass accumulating cost and time. -/
def sum_ride_vector (rides : List RideItem) : ℕ × ℚ :=
  rides.foldl (fun acc r => (acc.1 + r.cost, acc.2 + r.time)) (0, 0)

/-- The inclusion test of filter_ride_vector:
`time >= min_time && time <= max_time && time > 0`. -/
def timeOk (min_time max_time : ℚ) (x : RideItem) : Bool :=
  decide (min_time ≤ x.time) && decide (x.time ≤ max_time) && decide (0 < x.time)

/-- The loop of filter_ride_vector: `acc` is the vector built so far.  Each
element is pushed when it passes `timeOk`; after every element (pushed or
not) the loop breaks when `size >= total_size`. -/
def filterGo (min_time max_time : ℚ) (total_size : ℤ) :
    List RideItem → List RideItem → List RideItem
  | [], acc => acc
  | x :: rest, acc =>
    let acc' := if timeOk min_time max_time x then acc ++ [x] else acc
    if total_size ≤ (acc'.length : ℤ) then acc'
    else filterGo min_time max_time total_size rest acc'

/-- filter_ride_vector from maxtime.hh.  `total_size` is the C++ `int`
bound, hence ℤ. -/
def filter_ride_vector (source : List RideItem) (min_time max_time : ℚ)
    (total_size : ℤ) : List RideItem :=
  filterGo min_time max_time total_size source []

/-- `cache[i][j]` of dynamic_max_time: the table is initialised to 0, and
the fill loops run over `i = 1..N`, `j = 1..total_cost`, setting
`cache[i][j] = max(time(i) + cache[i-1][j-cost(i)], cache[i-1][j])` when
`cost(i) <= j` and `cache[i-1][j]` otherwise.  Row 0 and column 0 keep
their initial 0.  (The `none` branch is unreachable for `i < rides.length`,
the only indices the program uses.) -/
def cacheVal (rides : List RideItem) : ℕ → ℕ → ℚ
  | 0, _ => 0
  | i + 1, j =>
    if j = 0 then 0
    else
      match rides[i]? with
      | some item =>
        if item.cost ≤ j then
          max (item.time + cacheVal rides i (j - item.cost)) (cacheVal rides i j)
        else cacheVal rides i j
      | none => cacheVal rides i j

/-- The reconstruction loop of dynamic_max_time: walk `i` from N down to 1
with remaining budget `j` (`tempcost`); when `cache[i][j] != cache[i-1][j]`
push ride `i-1` and subtract its cost.  When the item is pushed the include
branch of the recurrence was strictly better, which forces
`item.cost ≤ j`, so ℕ subtraction agrees with the C++ arithmetic. -/
def dynReconstruct (rides : List RideItem) : ℕ → ℕ → List RideItem
  | 0, _ => []
  | i + 1, j =>
    if cacheVal rides (i + 1) j = cacheVal rides i j then
      dynReconstruct rides i j
    else
      match rides[i]? with
      | some item => item :: dynReconstruct rides i (j - item.cost)
      | none => dynReconstruct rides i j

/-- dynamic_max_time from maxtime.hh.  The budget is the C++ `int`
`total_cost`; the program indexes the table with it, so only non-negative
budgets are meaningful (negative budgets index out of bounds in C++), and
the embedding takes it as ℕ.  The returned list is in reverse input order
(items are pushed while `i` walks downward). -/
def dynamic_max_time (rides : List RideItem) (total_cost : ℕ) : List RideItem :=
  dynReconstruct rides rides.length total_cost

/-- Reference knapsack value function used in the proofs: the DP table row
`cacheVal rides i` coincides with `knapMax` on the reversed `i`-item
prefix. -/
def knapMax : List RideItem → ℕ → ℚ
  | [], _ => 0
  | item :: rest, j =>
    if j = 0 then 0
    else if item.cost ≤ j then
      max (item.time + knapMax rest (j - item.cost)) (knapMax rest j)
    else knapMax rest j

/-- The candidate built by the inner loop of exhaustive_max_time: for each
`j` in `0..n-1`, ride `j` is included when bit `j` of `bits` is set. -/
def candidateOfBits (rides : List RideItem) (n : ℕ) (bits : ℕ) : List RideItem :=
  (List.range n).filterMap fun j => if bits.testBit j then rides[j]? else none

/-- The bit patterns enumerated by exhaustive_max_time:
`for (size_t bits = 0; bits <= pow(2, n); bits++)` visits
`0, 1, ..., 2^n` — one more iteration than the `2^n` subsets.
This models the counter faithfully only for `n < 64`: at `n = 64` the C++
condition `bits <= pow(2, 64)` holds for every 64-bit `size_t` value, so
the counter wraps and the source loop never terminates, while this
unbounded-ℕ model stops after `2^64 + 1` iterations.  The theorems about
exhaustive_max_time therefore assume fewer than 64 items. -/
def exhaustiveBitRange (n : ℕ) : List ℕ :=
  List.range (2 ^ n + 1)

/-- One iteration of the best-tracking loop of exhaustive_max_time: the
candidate replaces `best` when its cost fits the budget and either `best`
is empty or the candidate's time strictly exceeds `best`'s. -/
def exhStep (rides : List RideItem) (n : ℕ) (total_cost : ℚ)
    (best : List RideItem) (bits : ℕ) : List RideItem :=
  let candidate := candidateOfBits rides n bits
  let sc := sum_ride_vector candidate
  let sb := sum_ride_vector best
  if (sc.1 : ℚ) ≤ total_cost then
    if best = [] ∨ sb.2 < sc.2 then candidate else best
  else best

/-- exhaustive_max_time from maxtime.hh.  The budget is the C++ `double`
`total_cost`, modelled as ℚ; `n` is capped at 64 as in the source. -/
def exhaustive_max_time (rides : List RideItem) (total_cost : ℚ) : List RideItem :=
  let n := if 64 < rides.length then 64 else rides.length
  (exhaustiveBitRange n).foldl (exhStep rides n total_cost) []

/-- Proof-side reformulation of `candidateOfBits rides rides.length`:
select the head when the low bit is set, recurse on the tail with the
shifted mask. -/
def maskSelect : List RideItem → ℕ → List RideItem
  | [], _ => []
  | r :: rest, bits =>
    if bits % 2 = 1 then r :: maskSelect rest (bits / 2)
    else maskSelect rest (bits / 2)

/-- The field loop of load_ride_database:
`for (std::string field; std::getline(ss, field, '^'); )`.  `cur` is the
reversed field read so far; a delimiter emits the field and starts a new
one only when characters remain (getline fails at end of stream). -/
def getlineSplit : List Char → List Char → List String
  | [], cur => [String.mk cur.reverse]
  | c :: cs, cur =>
    if c = '^' then
      String.mk cur.reverse ::
        (match cs with
         | [] => []
         | c2 :: cs2 => getlineSplit (c2 :: cs2) [])
    else getlineSplit cs (c :: cur)

/-- Split one record of the ride database on the `^` delimiter. -/
def splitFields (line : String) : List String :=
  match line.data with
  | [] => []
  | c :: cs => getlineSplit (c :: cs) []

/-- parse_dbl from load_ride_database.  `extract` abstracts what
`ss >> output` extracts from the field (`none` = extraction failure, which
since C++11 stores 0).  The lambda tests the stream *before* extracting —
a freshly built stringstream is always good — and then returns true
unconditionally, so the success flag is always `true`. -/
def parse_dbl (extract : String → Option ℚ) (field : String) : Bool × ℚ :=
  (true, (extract field).getD 0)

/-- The `double` cost field is narrowed through the `size_t` constructor
parameter of RideItem: truncation toward zero (negative values are
undefined behaviour in C++; the model clamps them to 0). -/
def ratToSizeT (q : ℚ) : ℕ :=
  q.floor.toNat

/-- The record loop of load_ride_database over the lines after the header:
a line with a field count other than 3 aborts the whole load (`none`);
otherwise the parse_dbl flags are consulted and the item is appended. -/
def loadLines (extract : String → Option ℚ) : List String → Option (List RideItem)
  | [] => some []
  | line :: rest =>
    match splitFields line with
    | [descr, costField, timeField] =>
      match loadLines extract rest with
      | none => none
      | some tailItems =>
        if (parse_dbl extract costField).1 && (parse_dbl extract timeField).1 then
          some (⟨descr, ratToSizeT (parse_dbl extract costField).2,
                  (parse_dbl extract timeField).2⟩ :: tailItems)
        else some tailItems
    | _ => none

/-- load_ride_database from maxtime.hh, over an already-read list of lines
(file I/O is outside the embedding).  The first line is a discarded
header; `none` models the `nullptr` failure value. -/
def load_ride_database (extract : String → Option ℚ) (lines : List String) :
    Option (List RideItem) :=
  match lines with
  | [] => some []
  | _header :: rest => loadLines extract rest

/-- A concrete extraction function for the load_ride_database theorems:
only the field "5" parses (to 5); everything else fails to extract. -/
def extractFails (s : String) : Option ℚ :=
  if s = "5" then some 5 else none

/-- A ride passing the sample filters, used in concrete instances. -/
def goodRide : RideItem := ⟨"g", 1, 5⟩

/-- A ride with negative time, used in concrete instances. -/
def negTimeRide : RideItem := ⟨"b", 1, -1⟩

/-! ### Aggregator lemmas -/

theorem totalCost_nil : totalCost [] = 0 := rfl

theorem totalTime_nil : totalTime [] = 0 := rfl

theorem totalCost_cons (x : RideItem) (l : List RideItem) :
    totalCost (x :: l) = x.cost + totalCost l := by
  simp [totalCost]

theorem totalTime_cons (x : RideItem) (l : List RideItem) :
    totalTime (x :: l) = x.time + totalTime l := by
  simp [totalTime]

theorem totalCost_reverse (l : List RideItem) : totalCost l.reverse = totalCost l := by
  simp [totalCost, List.map_reverse, List.sum_reverse]

theorem totalTime_reverse (l : List RideItem) : totalTime l.reverse = totalTime l := by
  simp [totalTime, List.map_reverse, List.sum_reverse]

theorem sum_ride_vector_go (l : List RideItem) :
    ∀ c : ℕ, ∀ t : ℚ,
      l.foldl (fun acc r => (acc.1 + r.cost, acc.2 + r.time)) (c, t) =
        (c + totalCost l, t + totalTime l) := by
  induction l with
  | nil => intro c t; simp [totalCost, totalTime]
  | cons x rest ih =>
    intro c t
    simp only [List.foldl_cons, ih, totalCost_cons, totalTime_cons]
    simp [add_assoc]

/-- sum_ride_vector computes exactly the total cost and total time. -/
theorem sum_ride_vector_eq (l : List RideItem) :
    sum_ride_vector l = (totalCost l, totalTime l) := by
  simpa using sum_ride_vector_go l 0 0

/-! ### Filter lemmas -/

theorem timeOk_iff (lo hi : ℚ) (x : RideItem) :
    timeOk lo hi x = true ↔ lo ≤ x.time ∧ x.time ≤ hi ∧ 0 < x.time := by
  simp [timeOk, and_assoc]

theorem timeOk_false_of_lt (lo hi : ℚ) (h : hi < lo) (x : RideItem) :
    timeOk lo hi x = false := by
  rw [Bool.eq_false_iff]
  intro hx
  rcases (timeOk_iff lo hi x).mp hx with ⟨h1, h2, _⟩
  exact absurd (le_trans h1 h2) (not_le.mpr h)

/-- Master description of the filter loop when the size bound has not yet
been reached: the loop appends the first matching items up to the bound. -/
theorem filterGo_eq_take (lo hi : ℚ) (k : ℤ) (l : List RideItem) :
    ∀ acc : List RideItem, (acc.length : ℤ) < k →
      filterGo lo hi k l acc =
        acc ++ (l.filter (timeOk lo hi)).take (k - acc.length).toNat := by
  induction l with
  | nil => intro acc h; simp [filterGo]
  | cons x rest ih =>
    intro acc h
    rw [filterGo]
    cases hx : timeOk lo hi x with
    | false =>
      simp only [hx, Bool.false_eq_true, if_false]
      have hnb : ¬ k ≤ ((acc.length : ℤ)) := not_le.mpr h
      simp only [hnb, if_false]
      rw [ih acc h, List.filter_cons_of_neg (by simp [hx])]
    | true =>
      simp only [hx, if_true]
      by_cases hbreak : k ≤ (((acc ++ [x]).length : ℤ))
      · have hk : k = (acc.length : ℤ) + 1 := by
          simp only [List.length_append, List.length_cons, List.length_nil] at hbreak
          omega
        simp only [hbreak, if_true]
        rw [List.filter_cons_of_pos (by simp [hx])]
        rw [show (k - (acc.length : ℤ)).toNat = 1 by omega]
        simp
      · have h' : (((acc ++ [x]).length : ℤ)) < k := not_le.mp hbreak
        simp only [hbreak, if_false]
        rw [ih (acc ++ [x]) h', List.filter_cons_of_pos (by simp [hx])]
        have harith : (k - (acc.length : ℤ)).toNat
            = (k - ((acc ++ [x]).length : ℤ)).toNat + 1 := by
          simp only [List.length_append, List.length_cons, List.length_nil]
          omega
        rw [harith]
        simp [List.take_succ_cons, List.append_assoc]

/-- For a positive size bound, filter_ride_vector keeps, in source order,
the matching items, truncated at the bound. -/
theorem filter_eq_take_of_pos (src : List RideItem) (lo hi : ℚ) (k : ℤ)
    (hk : 1 ≤ k) :
    filter_ride_vector src lo hi k = (src.filter (timeOk lo hi)).take k.toNat := by
  have h0 : (([] : List RideItem).length : ℤ) < k := by simp; omega
  have := filterGo_eq_take lo hi k src [] h0
  simpa [filter_ride_vector] using this

/-- For a non-positive size bound, the post-push break check fires during
the first iteration, so at most the first source item is returned. -/
theorem filter_nonpos (src : List RideItem) (lo hi : ℚ) (k : ℤ) (hk : k ≤ 0) :
    filter_ride_vector src lo hi k =
      match src with
      | [] => []
      | x :: _ => if timeOk lo hi x then [x] else [] := by
  cases src with
  | nil => rfl
  | cons x rest =>
    show filterGo lo hi k (x :: rest) [] = _
    rw [filterGo]
    cases hx : timeOk lo hi x with
    | false =>
      simp only [hx, Bool.false_eq_true, if_false]
      have hc : k ≤ ((([] : List RideItem).length : ℤ)) := by simp; omega
      rw [if_pos hc]
    | true =>
      simp only [hx, if_true]
      have hc : k ≤ ((([] ++ [x] : List RideItem).length : ℤ)) := by simp; omega
      rw [if_pos hc]
      simp

/-- Every item the filter returns passes the timeOk test. -/
theorem filter_mem_timeOk (src : List RideItem) (lo hi : ℚ) (k : ℤ) :
    ∀ x ∈ filter_ride_vector src lo hi k, timeOk lo hi x = true := by
  rcases le_or_lt k 0 with hk | hk
  · rw [filter_nonpos src lo hi k hk]
    cases src with
    | nil => intro x hx; simp at hx
    | cons y rest =>
      intro x hx
      cases hy : timeOk lo hi y with
      | false => simp [hy] at hx
      | true =>
        simp only [hy, if_true, List.mem_singleton] at hx
        simpa [hx] using hy
  · rw [filter_eq_take_of_pos src lo hi k hk]
    intro x hx
    exact (List.mem_filter.mp (List.take_subset _ _ hx)).2

/-- The filter output never exceeds a positive size bound. -/
theorem filter_length_le (src : List RideItem) (lo hi : ℚ) (k : ℤ) (hk : 1 ≤ k) :
    ((filter_ride_vector src lo hi k).length : ℤ) ≤ k := by
  rw [filter_eq_take_of_pos src lo hi k hk]
  have h1 : ((src.filter (timeOk lo hi)).take k.toNat).length ≤ k.toNat :=
    le_trans (List.length_take_le _ _) le_rfl
  omega

/-- A list of matching items short enough for the bound passes through the
filter unchanged. -/
theorem filter_all_ok (l : List RideItem) (lo hi : ℚ) (k : ℤ)
    (hmem : ∀ x ∈ l, timeOk lo hi x = true) (hlen : (l.length : ℤ) ≤ k) :
    filter_ride_vector l lo hi k = l := by
  rcases le_or_lt k 0 with hk | hk
  · have : l = [] := by
      cases l with
      | nil => rfl
      | cons x rest => simp at hlen; omega
    subst this; rfl
  · rw [filter_eq_take_of_pos l lo hi k hk]
    rw [List.filter_eq_self.mpr hmem]
    exact List.take_of_length_le (by omega)

/-! ### Claims about the filter -/

/-- C5 (counterexample): an item whose time lies inside the requested range
`[-2, 0]` is nevertheless excluded, because the loop additionally requires
strictly positive time.  The claim, as stated, demands the item be
returned. -/
theorem filter_in_range_item_dropped :
    ((-2 : ℚ) ≤ negTimeRide.time ∧ negTimeRide.time ≤ 0) ∧
    filter_ride_vector [negTimeRide] (-2) 0 10 = [] := by
  decide

/-- C5 (amended): for every maximum size ≥ 1, filter_ride_vector returns,
in source order, the items whose time lies within `[min_time, max_time]`
AND is strictly positive, truncated once the output reaches the maximum
size. -/
theorem filter_ride_vector_spec (src : List RideItem) (lo hi : ℚ) (k : ℤ)
    (hk : 1 ≤ k) :
    filter_ride_vector src lo hi k = (src.filter (timeOk lo hi)).take k.toNat :=
  filter_eq_take_of_pos src lo hi k hk

/-- Witness for C5 (amended) at a concrete input. -/
theorem filter_ride_vector_spec_witness :
    filter_ride_vector [goodRide, negTimeRide] 0 10 2 =
      (([goodRide, negTimeRide] : List RideItem).filter (timeOk 0 10)).take (2 : ℤ).toNat :=
  filter_ride_vector_spec [goodRide, negTimeRide] 0 10 2 (by norm_num)

/-- C6 (counterexample): with `total_size = 0` the loop pushes a matching
first element before testing the size bound, so the result is not empty. -/
theorem filter_size_zero_not_empty :
    filter_ride_vector [goodRide] 0 10 0 = [goodRide] ∧
    filter_ride_vector [goodRide] 0 10 0 ≠ [] := by
  decide

/-- C6 (amended): `min_time > max_time` always yields an empty result;
`total_size = 0` yields the first source element alone when it matches the
filter, and an empty result otherwise. -/
theorem filter_ride_vector_edge_cases (src : List RideItem) (lo hi : ℚ) (k : ℤ) :
    (hi < lo → filter_ride_vector src lo hi k = []) ∧
    (filter_ride_vector src lo hi 0 =
      match src with
      | [] => []
      | x :: _ => if timeOk lo hi x then [x] else []) := by
  constructor
  · intro hlt
    rcases le_or_lt k 0 with hk | hk
    · rw [filter_nonpos src lo hi k hk]
      cases src with
      | nil => rfl
      | cons x rest => simp [timeOk_false_of_lt lo hi hlt x]
    · rw [filter_eq_take_of_pos src lo hi k hk]
      have : src.filter (timeOk lo hi) = [] := by
        apply List.filter_eq_nil_iff.mpr
        intro x _
        simp [timeOk_false_of_lt lo hi hlt x]
      simp [this]
  · exact filter_nonpos src lo hi 0 le_rfl

/-- Witness for C6 (amended) at concrete inputs. -/
theorem filter_ride_vector_edge_cases_witness :
    filter_ride_vector [goodRide] 1 0 5 = [] ∧
    filter_ride_vector [goodRide] 0 10 0 = if timeOk 0 10 goodRide then [goodRide] else [] :=
  ⟨(filter_ride_vector_edge_cases [goodRide] 1 0 5).1 (by norm_num),
   (filter_ride_vector_edge_cases [goodRide] 0 10 0).2⟩

/-- C9: filtering an already-filtered sequence with the same range and an
equal-or-larger size bound returns the same sequence. -/
theorem filter_ride_vector_idempotent (src : List RideItem) (lo hi : ℚ)
    (k k' : ℤ) (hkk : k ≤ k') :
    filter_ride_vector (filter_ride_vector src lo hi k) lo hi k' =
      filter_ride_vector src lo hi k := by
  have hmem : ∀ x ∈ filter_ride_vector src lo hi k, timeOk lo hi x = true :=
    filter_mem_timeOk src lo hi k
  rcases le_or_lt k 0 with hk | hk
  · rw [filter_nonpos src lo hi k hk] at hmem ⊢
    cases src with
    | nil => rfl
    | cons x rest =>
      cases hx : timeOk lo hi x with
      | false => simp only [hx, Bool.false_eq_true, if_false]; rfl
      | true =>
        simp only [hx, if_true]
        rcases le_or_lt k' 0 with hk' | hk'
        · rw [filter_nonpos [x] lo hi k' hk']
          simp [hx]
        · exact filter_all_ok [x] lo hi k' (by simp [hx]) (by simp; omega)
  · exact filter_all_ok _ lo hi k' hmem
      (le_trans (filter_length_le src lo hi k hk) hkk)

/-- Witness for C9 at a concrete input. -/
theorem filter_ride_vector_idempotent_witness :
    filter_ride_vector (filter_ride_vector [goodRide, negTimeRide] 0 10 1) 0 10 3 =
      filter_ride_vector [goodRide, negTimeRide] 0 10 1 :=
  filter_ride_vector_idempotent [goodRide, negTimeRide] 0 10 1 3 (by norm_num)

/-- C10: every item the filter returns has strictly positive time, even
when the requested range includes non-positive times. -/
theorem filter_ride_vector_time_pos (src : List RideItem) (lo hi : ℚ) (k : ℤ) :
    ∀ x ∈ filter_ride_vector src lo hi k, 0 < x.time := by
  intro x hx
  exact ((timeOk_iff lo hi x).mp (filter_mem_timeOk src lo hi k x hx)).2.2

/-- Witness for C10 at a concrete input. -/
theorem filter_ride_vector_time_pos_witness : 0 < goodRide.time :=
  filter_ride_vector_time_pos [goodRide] (-2) 10 5 goodRide (by decide)

/-! ### Dynamic-programming solver lemmas -/

theorem knapMax_zero (l : List RideItem) : knapMax l 0 = 0 := by
  cases l <;> simp [knapMax]

theorem knapMax_nonneg (l : List RideItem) : ∀ j : ℕ, 0 ≤ knapMax l j := by
  induction l with
  | nil => intro j; simp [knapMax]
  | cons a rest ih =>
    intro j
    by_cases hj : j = 0
    · subst hj; rw [knapMax_zero]
    · rw [knapMax]
      simp only [hj, if_false]
      by_cases hc : a.cost ≤ j
      · simp only [hc, if_true]
        exact le_trans (ih j) (le_max_right _ _)
      · simp only [hc, if_false]
        exact ih j

theorem knapMax_cons_le (a : RideItem) (rest : List RideItem) (j : ℕ) :
    knapMax rest j ≤ knapMax (a :: rest) j := by
  by_cases hj : j = 0
  · subst hj; rw [knapMax_zero, knapMax_zero]
  · rw [knapMax]
    simp only [hj, if_false]
    by_cases hc : a.cost ≤ j
    · simp only [hc, if_true]
      exact le_max_right _ _
    · simp only [hc, if_false]
      exact le_rfl

/-- Upper bound: no feasible sub-multiset of `l` beats the knapsack value
(positive costs are needed: the table's zero column silently assumes no
item is free). -/
theorem knapMax_ub (l : List RideItem) :
    ∀ (j : ℕ) (S : List RideItem), (∀ r ∈ l, 0 < r.cost) → List.Sublist S l →
      totalCost S ≤ j → totalTime S ≤ knapMax l j := by
  induction l with
  | nil =>
    intro j S _ hS _
    rw [List.sublist_nil.mp hS]
    simp [knapMax, totalTime]
  | cons a rest ih =>
    intro j S hpos hS hc
    by_cases hj : j = 0
    · subst hj
      have hS0 : S = [] := by
        cases S with
        | nil => rfl
        | cons s ss =>
          exfalso
          have hs := hpos s (hS.subset (List.mem_cons_self s ss))
          rw [totalCost_cons] at hc
          omega
      subst hS0
      simp [knapMax_zero, totalTime]
    · cases hS with
      | cons _ hS' =>
        exact le_trans
          (ih j S (fun r hr => hpos r (List.mem_cons_of_mem a hr)) hS' hc)
          (knapMax_cons_le a rest j)
      | cons₂ _ hS' =>
        rename_i S'
        rw [totalCost_cons] at hc
        have hca : a.cost ≤ j := le_trans (Nat.le_add_right _ _) hc
        have hc' : totalCost S' ≤ j - a.cost := by omega
        have hub := ih (j - a.cost) S'
          (fun r hr => hpos r (List.mem_cons_of_mem a hr)) hS' hc'
        rw [totalTime_cons, knapMax]
        simp only [hj, if_false, hca, if_true]
        exact le_trans (by linarith) (le_max_left _ _)

/-- Existence: the knapsack value is attained by some feasible subset. -/
theorem knapMax_exists (l : List RideItem) :
    ∀ j : ℕ, ∃ S, List.Sublist S l ∧ totalCost S ≤ j ∧ totalTime S = knapMax l j := by
  induction l with
  | nil =>
    intro j
    exact ⟨[], List.Sublist.refl [], by simp [totalCost], by simp [knapMax, totalTime]⟩
  | cons a rest ih =>
    intro j
    by_cases hj : j = 0
    · subst hj
      exact ⟨[], List.nil_sublist _, by simp [totalCost], by simp [knapMax_zero, totalTime]⟩
    · by_cases hca : a.cost ≤ j
      · have hknap : knapMax (a :: rest) j
            = max (a.time + knapMax rest (j - a.cost)) (knapMax rest j) := by
          rw [knapMax]; simp only [hj, if_false, hca, if_true]
        rcases max_cases (a.time + knapMax rest (j - a.cost)) (knapMax rest j) with
          ⟨hmax, _⟩ | ⟨hmax, _⟩
        · rcases ih (j - a.cost) with ⟨S', hS', hc', ht'⟩
          refine ⟨a :: S', hS'.cons₂ a, ?_, ?_⟩
          · rw [totalCost_cons]; omega
          · rw [totalTime_cons, ht', hknap, hmax]
        · rcases ih j with ⟨S', hS', hc', ht'⟩
          exact ⟨S', hS'.cons a, hc', by rw [ht', hknap, hmax]⟩
      · rcases ih j with ⟨S', hS', hc', ht'⟩
        refine ⟨S', hS'.cons a, hc', ?_⟩
        rw [ht', knapMax]
        simp only [hj, if_false, hca, if_false]

theorem cacheVal_zero (rides : List RideItem) : ∀ i : ℕ, cacheVal rides i 0 = 0 := by
  intro i
  cases i with
  | zero => rfl
  | succ i => rw [cacheVal]; simp

/-- The DP table row `i` computes the knapsack value of the reversed
`i`-item prefix. -/
theorem cacheVal_eq_knapMax (rides : List RideItem) :
    ∀ i j : ℕ, cacheVal rides i j = knapMax ((rides.take i).reverse) j := by
  intro i
  induction i with
  | zero => intro j; simp [cacheVal, knapMax]
  | succ i ih =>
    intro j
    by_cases hj : j = 0
    · subst hj
      rw [cacheVal_zero, knapMax_zero]
    · rw [cacheVal]
      simp only [hj, if_false]
      cases hget : rides[i]? with
      | none =>
        have hlen : rides.length ≤ i := List.getElem?_eq_none_iff.mp hget
        rw [List.take_of_length_le (le_trans hlen (Nat.le_succ i)),
          ih j, List.take_of_length_le hlen]
      | some item =>
        have htake : rides.take (i + 1) = rides.take i ++ [item] := by
          rw [List.take_succ, hget]
          rfl
        rw [htake, List.reverse_append, List.reverse_singleton, List.singleton_append,
          knapMax]
        simp only [hj, if_false]
        by_cases hc : item.cost ≤ j
        · simp only [hc, if_true]
          rw [ih j, ih (j - item.cost)]
        · simp only [hc, if_false]
          exact ih j

/-- When the table walk decides to include item `i`, the include branch of
the recurrence was the strict winner: the item exists, fits the remaining
budget, and the cell value splits accordingly. -/
theorem cacheVal_succ_ne (rides : List RideItem) (i j : ℕ)
    (hne : cacheVal rides (i + 1) j ≠ cacheVal rides i j) :
    ∃ item, rides[i]? = some item ∧ j ≠ 0 ∧ item.cost ≤ j ∧
      cacheVal rides (i + 1) j = item.time + cacheVal rides i (j - item.cost) := by
  by_cases hj : j = 0
  · subst hj
    exact absurd ((cacheVal_zero rides (i + 1)).trans (cacheVal_zero rides i).symm) hne
  · cases hget : rides[i]? with
    | none =>
      exfalso
      apply hne
      rw [cacheVal]
      simp [hj, hget]
    | some item =>
      by_cases hc : item.cost ≤ j
      · refine ⟨item, rfl, hj, hc, ?_⟩
        have hcell : cacheVal rides (i + 1) j
            = max (item.time + cacheVal rides i (j - item.cost)) (cacheVal rides i j) := by
          rw [cacheVal]
          simp [hj, hget, hc]
        rcases max_cases (item.time + cacheVal rides i (j - item.cost))
          (cacheVal rides i j) with ⟨hmax, _⟩ | ⟨hmax, _⟩
        · rw [hcell, hmax]
        · exact absurd (hcell.trans hmax) hne
      · exfalso
        apply hne
        rw [cacheVal]
        simp [hj, hget, hc]

theorem take_sublist_succ (l : List RideItem) (i : ℕ) :
    List.Sublist (l.take i) (l.take (i + 1)) := by
  have h1 : (l.take (i + 1)).take i = l.take i := by
    rw [List.take_take, min_eq_left (Nat.le_succ i)]
  rw [← h1]
  exact List.take_sublist i _

/-- Correctness of the reconstruction walk: starting at row `i` with
remaining budget `j`, the pushed items form (in reverse) a subset of the
first `i` rides, their cost fits `j`, and their time equals the cell
value. -/
theorem dynReconstruct_spec (rides : List RideItem) :
    ∀ i j : ℕ,
      List.Sublist (dynReconstruct rides i j).reverse (rides.take i) ∧
      totalCost (dynReconstruct rides i j) ≤ j ∧
      totalTime (dynReconstruct rides i j) = cacheVal rides i j := by
  intro i
  induction i with
  | zero =>
    intro j
    exact ⟨by simp [dynReconstruct], by simp [dynReconstruct, totalCost],
      by simp [dynReconstruct, cacheVal, totalTime]⟩
  | succ i ih =>
    intro j
    rw [dynReconstruct]
    by_cases heq : cacheVal rides (i + 1) j = cacheVal rides i j
    · rw [if_pos heq]
      rcases ih j with ⟨hs, hc, ht⟩
      exact ⟨hs.trans (take_sublist_succ rides i), hc, ht.trans heq.symm⟩
    · rcases cacheVal_succ_ne rides i j heq with ⟨item, hget, _, hcost, hval⟩
      rw [if_neg heq, hget]
      rcases ih (j - item.cost) with ⟨hs, hc, ht⟩
      have htake : rides.take (i + 1) = rides.take i ++ [item] := by
        rw [List.take_succ, hget]
        rfl
      refine ⟨?_, ?_, ?_⟩
      · rw [List.reverse_cons, htake]
        exact hs.append (List.Sublist.refl [item])
      · rw [totalCost_cons]
        omega
      · rw [totalTime_cons, ht, hval]

/-- Full correctness of dynamic_max_time (internal form): the result, read
in reverse, is a subset of the input; its cost fits the budget; and its
time is maximal among all feasible subsets. -/
theorem dynamic_opt (rides : List RideItem) (B : ℕ)
    (hpos : ∀ r ∈ rides, 0 < r.cost) :
    List.Sublist (dynamic_max_time rides B).reverse rides ∧
    totalCost (dynamic_max_time rides B) ≤ B ∧
    ∀ S, List.Sublist S rides → totalCost S ≤ B →
      totalTime S ≤ totalTime (dynamic_max_time rides B) := by
  rcases dynReconstruct_spec rides rides.length B with ⟨hs, hc, ht⟩
  rw [List.take_length] at hs
  refine ⟨hs, hc, ?_⟩
  intro S hS hSc
  show totalTime S ≤ totalTime (dynReconstruct rides rides.length B)
  rw [ht, cacheVal_eq_knapMax, List.take_length]
  have hub := knapMax_ub rides.reverse B S.reverse
    (fun r hr => hpos r (List.mem_reverse.mp hr)) hS.reverse
    (by rwa [totalCost_reverse])
  rwa [totalTime_reverse] at hub

/-- The worked example from the design notes: budget 5 should select
items A and B (cost 5, time 7). -/
def exampleRides : List RideItem :=
  [⟨"A", 2, 3⟩, ⟨"B", 3, 4⟩, ⟨"C", 4, 5⟩, ⟨"D", 5, 6⟩]

/-- C1: for positive-cost items and a budget B ≥ 0, dynamic_max_time
returns a subset of the input (the result list is in reverse input order)
whose total cost is at most B and whose total time is maximal among all
subsets of total cost at most B. -/
theorem dynamic_max_time_correct (rides : List RideItem) (B : ℕ)
    (hpos : ∀ r ∈ rides, 0 < r.cost) :
    List.Sublist (dynamic_max_time rides B).reverse rides ∧
    totalCost (dynamic_max_time rides B) ≤ B ∧
    ∀ S, List.Sublist S rides → totalCost S ≤ B →
      totalTime S ≤ totalTime (dynamic_max_time rides B) :=
  dynamic_opt rides B hpos

/-- Witness for C1 on the design-note example. -/
theorem dynamic_max_time_correct_witness :
    totalCost (dynamic_max_time exampleRides 5) ≤ 5 :=
  (dynamic_max_time_correct exampleRides 5 (by decide)).2.1

/-- C8: raising the budget never lowers the total time dynamic_max_time
achieves. -/
theorem dynamic_max_time_budget_mono (rides : List RideItem)
    (hpos : ∀ r ∈ rides, 0 < r.cost) (B1 B2 : ℕ) (h : B1 ≤ B2) :
    totalTime (dynamic_max_time rides B1) ≤ totalTime (dynamic_max_time rides B2) := by
  rcases dynamic_opt rides B1 hpos with ⟨hs1, hc1, _⟩
  rcases dynamic_opt rides B2 hpos with ⟨_, _, hub2⟩
  have hle := hub2 (dynamic_max_time rides B1).reverse hs1
    (by rw [totalCost_reverse]; exact le_trans hc1 h)
  rwa [totalTime_reverse] at hle

/-- Witness for C8 on the design-note example. -/
theorem dynamic_max_time_budget_mono_witness :
    totalTime (dynamic_max_time exampleRides 3) ≤ totalTime (dynamic_max_time exampleRides 5) :=
  dynamic_max_time_budget_mono exampleRides (by decide) 3 5 (by norm_num)

/-! ### Exhaustive solver lemmas -/

/-- The loop over bit positions `0..n-1` builds exactly the mask-selected
subset when `n` is the full length. -/
theorem candidateOfBits_eq_maskSelect :
    ∀ (rides : List RideItem) (bits : ℕ),
      candidateOfBits rides rides.length bits = maskSelect rides bits := by
  intro rides
  induction rides with
  | nil => intro bits; rfl
  | cons r rest ih =>
    intro bits
    show (List.range (rest.length + 1)).filterMap
      (fun j => if bits.testBit j then (r :: rest)[j]? else none) = _
    rw [List.range_succ_eq_map, List.filterMap_cons, List.filterMap_map]
    have hcomp : ((fun j => if bits.testBit j then (r :: rest)[j]? else none) ∘ Nat.succ)
        = fun j => if (bits / 2).testBit j then rest[j]? else none := by
      funext j
      simp [Function.comp, Nat.testBit_succ]
    rw [hcomp]
    have htail : (List.range rest.length).filterMap
        (fun j => if (bits / 2).testBit j then rest[j]? else none)
        = maskSelect rest (bits / 2) := ih (bits / 2)
    rw [maskSelect]
    by_cases hb : bits % 2 = 1
    · have : bits.testBit 0 = true := by
        rw [Nat.testBit_zero]
        simp [hb]
      simp [this, hb, htail]
    · have : bits.testBit 0 = false := by
        rw [Nat.testBit_zero]
        simp [hb]
      simp [this, hb, htail]

theorem maskSelect_sublist (rides : List RideItem) :
    ∀ bits : ℕ, List.Sublist (maskSelect rides bits) rides := by
  induction rides with
  | nil => intro bits; simp [maskSelect]
  | cons r rest ih =>
    intro bits
    rw [maskSelect]
    by_cases hb : bits % 2 = 1
    · simp only [hb, if_true]
      exact (ih (bits / 2)).cons₂ r
    · simp only [hb, if_false]
      exact (ih (bits / 2)).cons r

theorem maskSelect_zero (rides : List RideItem) : maskSelect rides 0 = [] := by
  induction rides with
  | nil => rfl
  | cons r rest ih => rw [maskSelect]; simp [ih]

/-- Bit pattern `2^N` (the extra iteration of the loop) selects the empty
subset: all bits below `N` are clear. -/
theorem maskSelect_two_pow (rides : List RideItem) :
    maskSelect rides (2 ^ rides.length) = [] := by
  induction rides with
  | nil => rfl
  | cons r rest ih =>
    rw [maskSelect]
    have h1 : 2 ^ (r :: rest).length = 2 * 2 ^ rest.length := by
      simp [List.length_cons, pow_succ]
      ring
    rw [h1]
    have hmod : (2 * 2 ^ rest.length) % 2 = 0 := Nat.mul_mod_right 2 _
    have hdiv : (2 * 2 ^ rest.length) / 2 = 2 ^ rest.length :=
      Nat.mul_div_cancel_left _ (by norm_num)
    simp [hmod, hdiv, ih]

/-- Every nonzero pattern below `2^N` selects a nonempty subset. -/
theorem maskSelect_ne_nil (rides : List RideItem) :
    ∀ bits : ℕ, bits ≠ 0 → bits < 2 ^ rides.length → maskSelect rides bits ≠ [] := by
  induction rides with
  | nil =>
    intro bits h0 hlt
    simp at hlt
    omega
  | cons r rest ih =>
    intro bits h0 hlt
    rw [maskSelect]
    by_cases hb : bits % 2 = 1
    · simp [hb]
    · simp only [hb, if_false]
      have h1 : 2 ^ (r :: rest).length = 2 * 2 ^ rest.length := by
        simp [List.length_cons, pow_succ]
        ring
      rw [h1] at hlt
      exact ih (bits / 2) (by omega) (by omega)

/-- Every subset of the input is selected by some pattern below `2^N`. -/
theorem maskSelect_surjective (rides : List RideItem) :
    ∀ S : List RideItem, List.Sublist S rides →
      ∃ bits : ℕ, bits < 2 ^ rides.length ∧ maskSelect rides bits = S := by
  induction rides with
  | nil =>
    intro S hS
    rw [List.sublist_nil.mp hS]
    exact ⟨0, by simp, rfl⟩
  | cons r rest ih =>
    intro S hS
    have h1 : 2 ^ (r :: rest).length = 2 * 2 ^ rest.length := by
      simp [List.length_cons, pow_succ]
      ring
    cases hS with
    | cons _ hS' =>
      rcases ih S hS' with ⟨b, hb, hm⟩
      refine ⟨2 * b, by omega, ?_⟩
      rw [maskSelect]
      have hmod : (2 * b) % 2 = 0 := Nat.mul_mod_right 2 b
      have hdiv : (2 * b) / 2 = b := Nat.mul_div_cancel_left b (by norm_num)
      simp [hmod, hdiv, hm]
    | cons₂ _ hS' =>
      rename_i S'
      rcases ih S' hS' with ⟨b, hb, hm⟩
      refine ⟨2 * b + 1, by omega, ?_⟩
      rw [maskSelect]
      have hmod : (2 * b + 1) % 2 = 1 := by omega
      have hdiv : (2 * b + 1) / 2 = b := by omega
      simp [hmod, hdiv, hm]

/-- The best-tracking step rewritten through `maskSelect` and the
aggregate totals; used for all reasoning about the fold. -/
def exhStepM (rides : List RideItem) (B : ℚ) (best : List RideItem) (bits : ℕ) :
    List RideItem :=
  if (totalCost (maskSelect rides bits) : ℚ) ≤ B then
    if best = [] ∨ totalTime best < totalTime (maskSelect rides bits) then
      maskSelect rides bits
    else best
  else best

theorem exhStep_eq_exhStepM (rides : List RideItem) (B : ℚ) :
    exhStep rides rides.length B = exhStepM rides B := by
  funext best bits
  simp [exhStep, exhStepM, candidateOfBits_eq_maskSelect, sum_ride_vector_eq]

/-- Each step leaves `best` unchanged or installs a feasible candidate. -/
theorem exhStepM_cases (rides : List RideItem) (B : ℚ) (best : List RideItem)
    (bits : ℕ) :
    exhStepM rides B best bits = best ∨
    (exhStepM rides B best bits = maskSelect rides bits ∧
      (totalCost (maskSelect rides bits) : ℚ) ≤ B) := by
  rw [exhStepM]
  by_cases hfeas : (totalCost (maskSelect rides bits) : ℚ) ≤ B
  · rw [if_pos hfeas]
    by_cases hrepl : best = [] ∨ totalTime best < totalTime (maskSelect rides bits)
    · rw [if_pos hrepl]
      exact Or.inr ⟨rfl, hfeas⟩
    · rw [if_neg hrepl]
      exact Or.inl rfl
  · rw [if_neg hfeas]
    exact Or.inl rfl

/-- The fold's result is the initial best or some feasible candidate. -/
theorem exhFold_cases (rides : List RideItem) (B : ℚ) :
    ∀ (L : List ℕ) (best : List RideItem),
      List.foldl (exhStepM rides B) best L = best ∨
      ∃ b ∈ L, List.foldl (exhStepM rides B) best L = maskSelect rides b ∧
        (totalCost (maskSelect rides b) : ℚ) ≤ B := by
  intro L
  induction L with
  | nil => intro best; exact Or.inl rfl
  | cons b L ih =>
    intro best
    rw [List.foldl_cons]
    rcases ih (exhStepM rides B best b) with h | ⟨b', hb', h⟩
    · rw [h]
      rcases exhStepM_cases rides B best b with h2 | ⟨h2, hf⟩
      · exact Or.inl h2
      · exact Or.inr ⟨b, List.mem_cons_self b L, h2, hf⟩
    · exact Or.inr ⟨b', List.mem_cons_of_mem b hb', h⟩

/-- Over a block of patterns whose candidates are all nonempty, a nonempty
best stays nonempty, its time never drops, and it ends at least as good as
every feasible candidate of the block. -/
theorem exhFold_mono (rides : List RideItem) (B : ℚ) :
    ∀ (L : List ℕ) (best : List RideItem), best ≠ [] →
      (∀ b ∈ L, maskSelect rides b ≠ []) →
      List.foldl (exhStepM rides B) best L ≠ [] ∧
      totalTime best ≤ totalTime (List.foldl (exhStepM rides B) best L) ∧
      ∀ b ∈ L, (totalCost (maskSelect rides b) : ℚ) ≤ B →
        totalTime (maskSelect rides b) ≤ totalTime (List.foldl (exhStepM rides B) best L) := by
  intro L
  induction L with
  | nil =>
    intro best hbest _
    exact ⟨hbest, le_rfl, by simp⟩
  | cons b L ih =>
    intro best hbest hne
    rw [List.foldl_cons]
    by_cases hfeas : (totalCost (maskSelect rides b) : ℚ) ≤ B
    · by_cases hlt : totalTime best < totalTime (maskSelect rides b)
      · have hstep : exhStepM rides B best b = maskSelect rides b := by
          rw [exhStepM, if_pos hfeas, if_pos (Or.inr hlt)]
        rw [hstep]
        rcases ih (maskSelect rides b) (hne b (List.mem_cons_self b L))
          (fun b' hb' => hne b' (List.mem_cons_of_mem b hb')) with ⟨h1, h2, h3⟩
        refine ⟨h1, le_trans (le_of_lt hlt) h2, ?_⟩
        intro b' hb' hf'
        rcases List.mem_cons.mp hb' with rfl | hb'
        · exact h2
        · exact h3 b' hb' hf'
      · have hstep : exhStepM rides B best b = best := by
          rw [exhStepM, if_pos hfeas, if_neg]
          rintro (h | h)
          · exact hbest h
          · exact hlt h
        rw [hstep]
        rcases ih best hbest
          (fun b' hb' => hne b' (List.mem_cons_of_mem b hb')) with ⟨h1, h2, h3⟩
        refine ⟨h1, h2, ?_⟩
        intro b' hb' hf'
        rcases List.mem_cons.mp hb' with rfl | hb'
        · exact le_trans (not_lt.mp hlt) h2
        · exact h3 b' hb' hf'
    · have hstep : exhStepM rides B best b = best := by
        rw [exhStepM, if_neg hfeas]
      rw [hstep]
      rcases ih best hbest
        (fun b' hb' => hne b' (List.mem_cons_of_mem b hb')) with ⟨h1, h2, h3⟩
      refine ⟨h1, h2, ?_⟩
      intro b' hb' hf'
      rcases List.mem_cons.mp hb' with rfl | hb'
      · exact absurd hf' hfeas
      · exact h3 b' hb' hf'

/-- Starting from the empty best on a block of nonempty candidates: either
no candidate was feasible and the best stays empty, or the final best is a
nonempty subset at least as good as every feasible candidate. -/
theorem exhFold_start (rides : List RideItem) (B : ℚ) :
    ∀ L : List ℕ, (∀ b ∈ L, maskSelect rides b ≠ []) →
      (List.foldl (exhStepM rides B) [] L = [] ∧
        ∀ b ∈ L, ¬ ((totalCost (maskSelect rides b) : ℚ) ≤ B)) ∨
      (List.foldl (exhStepM rides B) [] L ≠ [] ∧
        ∀ b ∈ L, (totalCost (maskSelect rides b) : ℚ) ≤ B →
          totalTime (maskSelect rides b) ≤ totalTime (List.foldl (exhStepM rides B) [] L)) := by
  intro L
  induction L with
  | nil => intro _; exact Or.inl ⟨rfl, by simp⟩
  | cons b L ih =>
    intro hne
    rw [List.foldl_cons]
    by_cases hfeas : (totalCost (maskSelect rides b) : ℚ) ≤ B
    · have hstep : exhStepM rides B [] b = maskSelect rides b := by
        rw [exhStepM, if_pos hfeas, if_pos (Or.inl rfl)]
      rw [hstep]
      rcases exhFold_mono rides B L (maskSelect rides b)
        (hne b (List.mem_cons_self b L))
        (fun b' hb' => hne b' (List.mem_cons_of_mem b hb')) with ⟨h1, h2, h3⟩
      right
      refine ⟨h1, ?_⟩
      intro b' hb' hf'
      rcases List.mem_cons.mp hb' with rfl | hb'
      · exact h2
      · exact h3 b' hb' hf'
    · have hstep : exhStepM rides B [] b = [] := by
        rw [exhStepM, if_neg hfeas]
      rw [hstep]
      rcases ih (fun b' hb' => hne b' (List.mem_cons_of_mem b hb')) with
        ⟨h1, h2⟩ | ⟨h1, h2⟩
      · left
        refine ⟨h1, ?_⟩
        intro b' hb'
        rcases List.mem_cons.mp hb' with rfl | hb'
        · exact hfeas
        · exact h2 b' hb'
      · right
        refine ⟨h1, ?_⟩
        intro b' hb' hf'
        rcases List.mem_cons.mp hb' with rfl | hb'
        · exact absurd hf' hfeas
        · exact h2 b' hb' hf'

/-- The enumerated patterns split as the initial `0`, the nonzero patterns
below `2^n`, and the extra pattern `2^n`. -/
theorem exhaustiveBitRange_decomp (n : ℕ) :
    exhaustiveBitRange n
      = 0 :: ((List.range (2 ^ n - 1)).map Nat.succ ++ [2 ^ n]) := by
  obtain ⟨m, hm⟩ : ∃ m, 2 ^ n = m + 1 :=
    ⟨2 ^ n - 1, by have : 0 < 2 ^ n := Nat.pos_pow_of_pos n (by norm_num); omega⟩
  rw [exhaustiveBitRange, hm]
  rw [show m + 1 - 1 = m by omega]
  rw [List.range_succ_eq_map, List.range_succ, List.map_append]
  rfl

/-- Membership in the middle block of the pattern list. -/
theorem mem_middle_iff (n b : ℕ) :
    b ∈ (List.range (2 ^ n - 1)).map Nat.succ ↔ 1 ≤ b ∧ b < 2 ^ n := by
  have hpos : 0 < 2 ^ n := Nat.pos_pow_of_pos n (by norm_num)
  simp only [List.mem_map, List.mem_range]
  constructor
  · rintro ⟨a, ha, rfl⟩
    omega
  · rintro ⟨h1, h2⟩
    exact ⟨b - 1, by omega, by omega⟩

/-- Full correctness of exhaustive_max_time (internal form): for a
non-negative budget and fewer than 64 items — the domain on which the
source loop terminates and the counter model is exact — the result is a
subset of the input, fits the budget, and its time is maximal among all
feasible subsets.  (The extra `bits = 2^N` iteration re-examines the empty
subset, which repairs the unconditional replacement of an empty best.) -/
theorem exhaustive_opt (rides : List RideItem) (B : ℚ) (hB : 0 ≤ B)
    (hn : rides.length < 64) :
    List.Sublist (exhaustive_max_time rides B) rides ∧
    (totalCost (exhaustive_max_time rides B) : ℚ) ≤ B ∧
    ∀ S, List.Sublist S rides → (totalCost S : ℚ) ≤ B →
      totalTime S ≤ totalTime (exhaustive_max_time rides B) := by
  have hncap : (if 64 < rides.length then 64 else rides.length) = rides.length :=
    if_neg (not_lt.mpr (le_of_lt hn))
  have hexh : exhaustive_max_time rides B
      = List.foldl (exhStepM rides B) [] (exhaustiveBitRange rides.length) := by
    simp only [exhaustive_max_time, hncap, exhStep_eq_exhStepM]
  have hstep0 : exhStepM rides B [] 0 = [] := by
    rw [exhStepM, maskSelect_zero]
    split_ifs <;> rfl
  have hMne : ∀ b ∈ (List.range (2 ^ rides.length - 1)).map Nat.succ,
      maskSelect rides b ≠ [] := by
    intro b hb
    rcases (mem_middle_iff rides.length b).mp hb with ⟨h1, h2⟩
    exact maskSelect_ne_nil rides b (by omega) h2
  have hfold : exhaustive_max_time rides B
      = exhStepM rides B
          (List.foldl (exhStepM rides B) []
            ((List.range (2 ^ rides.length - 1)).map Nat.succ))
          (2 ^ rides.length) := by
    rw [hexh, exhaustiveBitRange_decomp, List.foldl_cons, hstep0, List.foldl_append]
    rfl
  set best1 := List.foldl (exhStepM rides B) []
    ((List.range (2 ^ rides.length - 1)).map Nat.succ) with hbest1
  have hfinal : exhaustive_max_time rides B
      = if best1 = [] ∨ totalTime best1 < 0 then [] else best1 := by
    rw [hfold, exhStepM, maskSelect_two_pow, totalCost_nil, totalTime_nil]
    rw [if_pos (by exact_mod_cast hB)]
  have hstart := exhFold_start rides B
    ((List.range (2 ^ rides.length - 1)).map Nat.succ) hMne
  rw [← hbest1] at hstart
  have hc := exhFold_cases rides B
    ((List.range (2 ^ rides.length - 1)).map Nat.succ) []
  rw [← hbest1] at hc
  have hsub : List.Sublist (exhaustive_max_time rides B) rides := by
    rw [hfinal]
    by_cases hcond : best1 = [] ∨ totalTime best1 < 0
    · rw [if_pos hcond]
      exact List.nil_sublist rides
    · rw [if_neg hcond]
      rcases hc with h | ⟨b, _, h, _⟩
      · rw [h]
        exact List.nil_sublist rides
      · rw [h]
        exact maskSelect_sublist rides b
  have hcost : (totalCost (exhaustive_max_time rides B) : ℚ) ≤ B := by
    rw [hfinal]
    by_cases hcond : best1 = [] ∨ totalTime best1 < 0
    · rw [if_pos hcond, totalCost_nil]
      exact_mod_cast hB
    · rw [if_neg hcond]
      rcases hc with h | ⟨b, _, h, hf⟩
      · rw [h, totalCost_nil]
        exact_mod_cast hB
      · rw [h]
        exact hf
  refine ⟨hsub, hcost, ?_⟩
  intro S hS hSc
  by_cases hS0 : S = []
  · subst hS0
    rw [totalTime_nil, hfinal]
    by_cases hcond : best1 = [] ∨ totalTime best1 < 0
    · rw [if_pos hcond, totalTime_nil]
    · rw [if_neg hcond]
      push_neg at hcond
      exact hcond.2
  · rcases maskSelect_surjective rides S hS with ⟨b, hblt, hbm⟩
    have hb0 : b ≠ 0 := by
      intro h0
      subst h0
      rw [maskSelect_zero] at hbm
      exact hS0 hbm.symm
    have hbmid : b ∈ (List.range (2 ^ rides.length - 1)).map Nat.succ :=
      (mem_middle_iff rides.length b).mpr ⟨by omega, hblt⟩
    rcases hstart with ⟨h1, h2⟩ | ⟨h1, h2⟩
    · exact absurd (by rwa [hbm]) (h2 b hbmid)
    · have hle : totalTime S ≤ totalTime best1 := by
        have hx := h2 b hbmid (by rwa [hbm])
        rwa [hbm] at hx
      rw [hfinal]
      by_cases hcond : best1 = [] ∨ totalTime best1 < 0
      · rcases hcond with hc1 | hc2
        · exact absurd hc1 h1
        · rw [if_pos (Or.inr hc2), totalTime_nil]
          exact le_trans hle (le_of_lt hc2)
      · rw [if_neg hcond]
        exact hle

/-- A ride whose time is exactly 0, used in concrete instances. -/
def zeroTimeRide : RideItem := ⟨"a", 1, 0⟩

/-- C3 (counterexample): with a single feasible zero-time item, both the
empty subset (bit pattern 0) and the singleton (bit pattern 1) attain the
maximal total time 0, and the empty subset comes first in bit order; the
claim therefore demands the empty subset, but the code returns the
singleton, because a feasible candidate replaces an *empty* best without
any time comparison. -/
theorem exhaustive_zero_time_tie :
    exhaustive_max_time [zeroTimeRide] 1 = [zeroTimeRide] ∧
    (totalCost ([] : List RideItem) : ℚ) ≤ 1 ∧
    totalTime ([] : List RideItem) = totalTime [zeroTimeRide] := by
  refine ⟨?_, by norm_num [totalCost], by simp [totalTime, zeroTimeRide]⟩
  show (exhaustiveBitRange ([zeroTimeRide] : List RideItem).length).foldl
    (exhStep [zeroTimeRide] ([zeroTimeRide] : List RideItem).length 1) [] = [zeroTimeRide]
  rw [exhStep_eq_exhStepM]
  rw [show ([zeroTimeRide] : List RideItem).length = 1 from rfl]
  rw [show exhaustiveBitRange 1 = [0, 1, 2] from rfl]
  simp only [List.foldl_cons, List.foldl_nil]
  have e0 : exhStepM [zeroTimeRide] 1 [] 0 = [] := by
    rw [exhStepM]
    split_ifs <;> rfl
  rw [e0]
  have e1 : exhStepM [zeroTimeRide] 1 [] 1 = [zeroTimeRide] := by
    rw [exhStepM]
    have hfeas : ((totalCost (maskSelect [zeroTimeRide] 1) : ℕ) : ℚ) ≤ 1 := by
      norm_num [maskSelect, totalCost, zeroTimeRide]
    rw [if_pos hfeas, if_pos (Or.inl rfl)]
    rfl
  rw [e1]
  have e2 : exhStepM [zeroTimeRide] 1 [zeroTimeRide] 2 = [zeroTimeRide] := by
    rw [exhStepM]
    have hfeas : ((totalCost (maskSelect [zeroTimeRide] 2) : ℕ) : ℚ) ≤ 1 := by
      norm_num [maskSelect, totalCost]
    have hncond : ¬(([zeroTimeRide] : List RideItem) = [] ∨
        totalTime [zeroTimeRide] < totalTime (maskSelect [zeroTimeRide] 2)) := by
      rintro (h | h)
      · simp at h
      · norm_num [totalTime, maskSelect, zeroTimeRide] at h
    rw [if_pos hfeas, if_neg hncond]
  rw [e2]

/-- C3 (amended): for fewer than 64 items and a non-negative budget,
exhaustive_max_time returns a subset of the items whose total cost is
within budget and whose total time is maximal among all subsets; ties are
not always won by the first bit pattern — a feasible candidate also
replaces an empty current best, so a nonempty feasible subset of total
time 0 is preferred to the empty subset.  (At 64 items or more the source
loop never terminates: its `size_t` counter satisfies
`bits <= pow(2, 64)` forever; nothing is claimed there.) -/
theorem exhaustive_max_time_correct (rides : List RideItem) (B : ℚ)
    (hB : 0 ≤ B) (hn : rides.length < 64) :
    List.Sublist (exhaustive_max_time rides B) rides ∧
    (totalCost (exhaustive_max_time rides B) : ℚ) ≤ B ∧
    ∀ S, List.Sublist S rides → (totalCost S : ℚ) ≤ B →
      totalTime S ≤ totalTime (exhaustive_max_time rides B) :=
  exhaustive_opt rides B hB hn

/-- Witness for C3 (amended) on the design-note example. -/
theorem exhaustive_max_time_correct_witness :
    (totalCost (exhaustive_max_time exampleRides 5) : ℚ) ≤ 5 :=
  (exhaustive_max_time_correct exampleRides 5 (by norm_num) (by decide)).2.1

/-- C4: the loop bound `bits <= pow(2, n)` makes the subset enumeration
run `2^N + 1` times, not `2^N`: at `N = 1` it runs 3 iterations, and the
patterns 0 and 2 build the same (empty) candidate subset. -/
theorem exhaustive_bit_range_off_by_one :
    (∀ n : ℕ, (exhaustiveBitRange n).length = 2 ^ n + 1) ∧
    (exhaustiveBitRange 1).length ≠ 2 ^ 1 ∧
    candidateOfBits [zeroTimeRide] 1 0 = candidateOfBits [zeroTimeRide] 1 2 := by
  refine ⟨fun n => by simp [exhaustiveBitRange], by decide, by decide⟩

/-- C2: on at most 16 positive-cost items, the dynamic and exhaustive
solvers achieve the same total time for every budget. -/
theorem dynamic_exhaustive_same_time (rides : List RideItem)
    (hpos : ∀ r ∈ rides, 0 < r.cost) (h16 : rides.length ≤ 16) (B : ℕ) :
    totalTime (dynamic_max_time rides B)
      = totalTime (exhaustive_max_time rides (B : ℚ)) := by
  have h64 : rides.length < 64 := lt_of_le_of_lt h16 (by norm_num)
  rcases dynamic_opt rides B hpos with ⟨hds, hdc, hdub⟩
  rcases exhaustive_opt rides (B : ℚ) (Nat.cast_nonneg B) h64 with ⟨hes, hec, heub⟩
  apply le_antisymm
  · have h1 := heub (dynamic_max_time rides B).reverse hds
      (by rw [totalCost_reverse]; exact_mod_cast hdc)
    rwa [totalTime_reverse] at h1
  · exact hdub (exhaustive_max_time rides (B : ℚ)) hes (by exact_mod_cast hec)

/-- Witness for C2 on the design-note example. -/
theorem dynamic_exhaustive_same_time_witness :
    totalTime (dynamic_max_time exampleRides 5)
      = totalTime (exhaustive_max_time exampleRides ((5 : ℕ) : ℚ)) :=
  dynamic_exhaustive_same_time exampleRides (by decide) (by decide) 5

/-! ### Claims about load_ride_database -/

/-- C7: a record with a field count other than 3 makes the whole load fail
(conjunct 3), but a record whose cost field fails to extract is NOT
skipped: parse_dbl reports success unconditionally (it only tests the
stream before extraction), so the record is stored with cost 0 —
violating the RideItem cost > 0 assertion — instead of being dropped
(conjunct 2). -/
theorem load_ride_database_unparsed_not_skipped :
    extractFails "abc" = none ∧
    load_ride_database extractFails ["descr^cost^time", "ride^abc^5"]
      = some [⟨"ride", 0, 5⟩] ∧
    load_ride_database extractFails ["descr^cost^time", "ride^1^2^3"] = none :=
  ⟨rfl, rfl, rfl⟩
